import Mathlib

/-!
Verification development for the cycling bout / W-prime balance analysis core
(`Crit-study.py`).

The exponential-recovery-free components (bout detection, depletion counting,
zone binning, zone aggregation) are embedded over `ℚ`: the Python code runs on
floats, and exact rational arithmetic is the idealisation of that arithmetic on
which every comparison in the code is faithful and decidable.  The W-prime
balance tracker calls `math.exp` and a real power with a real exponent, so it
is embedded over `ℝ` with `Real.exp` and `Real.rpow`.
-/

namespace Crit

/-- A bout record, as built by `analyze_bouts` on closure: the dictionary
`{start_time, duration, magnitude}` appended to `bouts`.  (The presentational
`color` column added afterwards is not modelled.) -/
structure Bout where
  start_time : Option ℚ
  duration : ℕ
  magnitude : ℚ
deriving DecidableEq, Repr

/-- The loop state of `analyze_bouts`: the four mutable variables
`duration, avg_power, below_counter, start_time` (initialised to
`0, 0, 0, None`). -/
structure BoutState where
  duration : ℕ
  avg_power : ℚ
  below_counter : ℕ
  start_time : Option ℚ
deriving DecidableEq, Repr

/-- Closing a bout (the body shared by the mid-series close at
`below_counter > gap_tolerance` and the end-of-series check): emit the bout
iff `duration >= min_bout_duration` and
`magnitude = (avg_power / duration / cp) * 100 >= threshold_factor * 100`. -/
def boutClose (tf : ℚ) (mbd : ℕ) (cp : ℚ) (s : BoutState) : List Bout :=
  if mbd ≤ s.duration then
    let magnitude := s.avg_power / (s.duration : ℚ) / cp * 100
    if tf * 100 ≤ magnitude then [⟨s.start_time, s.duration, magnitude⟩] else []
  else []

/-- The `for t, p in zip(time_values, power_values)` loop of `analyze_bouts`,
with the end-of-file close appended when the input is exhausted. -/
def boutsGo (tf : ℚ) (mbd gt : ℕ) (cp : ℚ) (s : BoutState) :
    List (ℚ × ℚ) → List Bout
  | [] => boutClose tf mbd cp s
  | (t, p) :: rest =>
    if cp * tf < p then
      boutsGo tf mbd gt cp
        ⟨s.duration + 1, s.avg_power + p, 0,
          if s.duration = 0 then some t else s.start_time⟩ rest
    else if 0 < s.duration then
      if s.below_counter + 1 ≤ gt then
        boutsGo tf mbd gt cp
          ⟨s.duration + 1, s.avg_power + p, s.below_counter + 1, s.start_time⟩ rest
      else
        boutClose tf mbd cp s ++ boutsGo tf mbd gt cp ⟨0, 0, 0, none⟩ rest
    else boutsGo tf mbd gt cp s rest

/-- `analyze_bouts` with its three local constants (`threshold_factor`,
`min_bout_duration`, `gap_tolerance`) lifted to parameters; the source fixes
them to `1.00`, `3`, `3` (see `analyze_bouts` below), and the specification
treats them as configuration. -/
def analyzeBoutsWith (tf : ℚ) (mbd gt : ℕ) (time_values power_values : List ℚ)
    (cp : ℚ) : List Bout :=
  boutsGo tf mbd gt cp ⟨0, 0, 0, none⟩ (time_values.zip power_values)

/-- `analyze_bouts(time_values, power_values, cp)` of the source:
`threshold_factor = 1.00`, `min_bout_duration = 3`, `gap_tolerance = 3`. -/
def analyze_bouts (time_values power_values : List ℚ) (cp : ℚ) : List Bout :=
  analyzeBoutsWith 1 3 3 time_values power_values cp

lemma boutClose_valid {tf : ℚ} {mbd : ℕ} {cp : ℚ} {s : BoutState} {b : Bout}
    (hb : b ∈ boutClose tf mbd cp s) :
    mbd ≤ b.duration ∧ tf * 100 ≤ b.magnitude := by
  unfold boutClose at hb
  dsimp only at hb
  split_ifs at hb with h1 h2
  · rcases List.mem_singleton.mp hb with rfl
    exact ⟨h1, h2⟩
  · simp at hb
  · simp at hb

lemma boutsGo_valid {tf : ℚ} {mbd gt : ℕ} {cp : ℚ} :
    ∀ (l : List (ℚ × ℚ)) (s : BoutState) (b : Bout),
      b ∈ boutsGo tf mbd gt cp s l → mbd ≤ b.duration ∧ tf * 100 ≤ b.magnitude := by
  intro l
  induction l with
  | nil => intro s b hb; exact boutClose_valid hb
  | cons tp rest ih =>
    intro s b hb
    obtain ⟨t, p⟩ := tp
    unfold boutsGo at hb
    split at hb
    · exact ih _ _ hb
    · split at hb
      · split at hb
        · exact ih _ _ hb
        · rcases List.mem_append.mp hb with h | h
          · exact boutClose_valid h
          · exact ih _ _ h
      · exact ih _ _ hb

lemma zip_replicate_const (c : ℚ) :
    ∀ l : List ℚ, l.zip (List.replicate l.length c) = l.map (fun t => (t, c))
  | [] => rfl
  | t :: ts => by
    simp only [List.length_cons, List.replicate_succ, List.zip_cons_cons,
      List.map_cons, zip_replicate_const c ts]

lemma boutsGo_open_step {tf : ℚ} {mbd gt : ℕ} {cp p t : ℚ} {rest : List (ℚ × ℚ)}
    (hp : cp * tf < p) :
    boutsGo tf mbd gt cp ⟨0, 0, 0, none⟩ ((t, p) :: rest) =
      boutsGo tf mbd gt cp ⟨1, p, 0, some t⟩ rest := by
  simp [boutsGo, hp]

lemma boutsGo_high_run {tf : ℚ} {mbd gt : ℕ} {cp p : ℚ} (hp : cp * tf < p) :
    ∀ (ts : List ℚ) (rest : List (ℚ × ℚ)) (d : ℕ) (a : ℚ) (st : Option ℚ), 0 < d →
      boutsGo tf mbd gt cp ⟨d, a, 0, st⟩ (ts.map (fun u => (u, p)) ++ rest) =
      boutsGo tf mbd gt cp ⟨d + ts.length, a + (ts.length : ℚ) * p, 0, st⟩ rest := by
  intro ts
  induction ts with
  | nil => intro rest d a st _; simp
  | cons u us ih =>
    intro rest d a st hd
    have h1 : boutsGo tf mbd gt cp ⟨d, a, 0, st⟩
        ((u, p) :: (us.map (fun v => (v, p)) ++ rest))
        = boutsGo tf mbd gt cp ⟨d + 1, a + p, 0, st⟩ (us.map (fun v => (v, p)) ++ rest) := by
      simp [boutsGo, hp, hd.ne']
    simp only [List.map_cons, List.cons_append]
    rw [h1, ih _ _ _ _ (Nat.succ_pos d)]
    have h2 : (⟨d + 1 + us.length, a + p + (us.length : ℚ) * p, 0, st⟩ : BoutState)
        = ⟨d + (u :: us).length, a + ((u :: us).length : ℚ) * p, 0, st⟩ := by
      simp only [BoutState.mk.injEq, List.length_cons, and_true, true_and]
      refine ⟨by omega, by push_cast; ring⟩
    rw [h2]

lemma boutsGo_high_step {tf : ℚ} {mbd gt : ℕ} {cp p t a : ℚ} {st : Option ℚ}
    {d k : ℕ} {rest : List (ℚ × ℚ)} (hp : cp * tf < p) (hd : 0 < d) :
    boutsGo tf mbd gt cp ⟨d, a, k, st⟩ ((t, p) :: rest) =
      boutsGo tf mbd gt cp ⟨d + 1, a + p, 0, st⟩ rest := by
  simp [boutsGo, hp, hd.ne']

lemma boutsGo_gap_step {tf : ℚ} {mbd gt : ℕ} {cp p t a : ℚ} {st : Option ℚ}
    {d k : ℕ} {rest : List (ℚ × ℚ)}
    (hp : ¬ cp * tf < p) (hd : 0 < d) (hk : k + 1 ≤ gt) :
    boutsGo tf mbd gt cp ⟨d, a, k, st⟩ ((t, p) :: rest) =
      boutsGo tf mbd gt cp ⟨d + 1, a + p, k + 1, st⟩ rest := by
  simp [boutsGo, hp, hd, hk]

lemma boutsGo_close_step {tf : ℚ} {mbd gt : ℕ} {cp p t a : ℚ} {st : Option ℚ}
    {d k : ℕ} {rest : List (ℚ × ℚ)}
    (hp : ¬ cp * tf < p) (hd : 0 < d) (hk : ¬ k + 1 ≤ gt) :
    boutsGo tf mbd gt cp ⟨d, a, k, st⟩ ((t, p) :: rest) =
      boutClose tf mbd cp ⟨d, a, k, st⟩ ++ boutsGo tf mbd gt cp ⟨0, 0, 0, none⟩ rest := by
  simp [boutsGo, hp, hd, hk]

lemma boutsGo_idle {tf : ℚ} {mbd gt : ℕ} {cp : ℚ} (hmbd : 0 < mbd) :
    ∀ l : List (ℚ × ℚ), (∀ x ∈ l, ¬ cp * tf < x.2) →
      boutsGo tf mbd gt cp ⟨0, 0, 0, none⟩ l = [] := by
  intro l
  induction l with
  | nil =>
    intro _
    simp [boutsGo, boutClose, Nat.le_zero, hmbd.ne']
  | cons x xs ih =>
    intro h
    obtain ⟨t, p⟩ := x
    have hp : ¬ cp * tf < p := h (t, p) (List.mem_cons_self _ _)
    simpa [boutsGo, hp] using ih fun y hy => h y (List.mem_cons_of_mem _ hy)

/-- C2: every Bout emitted by the bout detector — whether closed mid-series by
exceeding the gap tolerance or closed at end-of-series — satisfies both
`duration ≥ minBoutDuration` and `magnitudePercentCP ≥ thresholdFactor * 100`
(the source's `analyze_bouts` is the instance `tf = 1`, `mbd = 3`, `gt = 3`). -/
theorem bout_validity (tf : ℚ) (mbd gt : ℕ) (time_values power_values : List ℚ)
    (cp : ℚ) (b : Bout)
    (hb : b ∈ analyzeBoutsWith tf mbd gt time_values power_values cp) :
    mbd ≤ b.duration ∧ tf * 100 ≤ b.magnitude :=
  boutsGo_valid _ _ _ hb

/-- Witness for C2 at a concrete input: three samples of 300 W at CP 250 W
produce the bout `⟨some 0, 3, 120⟩`, which satisfies both bounds. -/
theorem bout_validity_witness :
    (⟨some 0, 3, 120⟩ : Bout) ∈ analyzeBoutsWith 1 3 3 [0, 1, 2] [300, 300, 300] 250 ∧
      (3 ≤ (Bout.mk (some 0) 3 120).duration ∧
        (1 : ℚ) * 100 ≤ (Bout.mk (some 0) 3 120).magnitude) := by
  have hmem : (⟨some 0, 3, 120⟩ : Bout) ∈
      analyzeBoutsWith 1 3 3 [0, 1, 2] [300, 300, 300] 250 := by
    norm_num [analyzeBoutsWith, boutsGo, boutClose, List.zip]
  exact ⟨hmem, bout_validity 1 3 3 [0, 1, 2] [300, 300, 300] 250 _ hmem⟩

/-- The power series of the C3 scenario: constant 300 W for 10 samples, then
constant 200 W for 60 samples. -/
def c3powers : List ℚ := List.replicate 10 300 ++ List.replicate 60 200

/-- The time axis of the C3 scenario: seconds 0 through 69. -/
def c3times : List ℚ := List.map (fun n : ℕ => (n : ℚ)) (List.range 70)

lemma c3_bouts_core (t0 t1 t2 t3 t4 t5 t6 t7 t8 t9 t10 t11 t12 t13 : ℚ)
    (rest : List ℚ) :
    boutsGo (21/20) 3 3 250 ⟨0, 0, 0, none⟩
      ((t0, 300) :: (t1, 300) :: (t2, 300) :: (t3, 300) :: (t4, 300) :: (t5, 300) ::
       (t6, 300) :: (t7, 300) :: (t8, 300) :: (t9, 300) :: (t10, 200) :: (t11, 200) ::
       (t12, 200) :: (t13, 200) :: rest.map (fun t => (t, 200)))
      = [⟨some t0, 13, 1440/13⟩] := by
  have hidle : boutsGo (21/20) 3 3 250 ⟨0, 0, 0, none⟩
      (rest.map (fun t => (t, 200))) = [] :=
    boutsGo_idle (by norm_num) _ (by
      intro x hx
      obtain ⟨t, _, rfl⟩ := List.mem_map.mp hx
      norm_num)
  have hp300 : (250 : ℚ) * (21/20) < 300 := by norm_num
  have hp200 : ¬ (250 : ℚ) * (21/20) < 200 := by norm_num
  rw [boutsGo_open_step hp300,
    boutsGo_high_step hp300 (show (0:ℕ) < 1 by norm_num),
    boutsGo_high_step hp300 (show (0:ℕ) < 1+1 by norm_num),
    boutsGo_high_step hp300 (show (0:ℕ) < 1+1+1 by norm_num),
    boutsGo_high_step hp300 (show (0:ℕ) < 1+1+1+1 by norm_num),
    boutsGo_high_step hp300 (show (0:ℕ) < 1+1+1+1+1 by norm_num),
    boutsGo_high_step hp300 (show (0:ℕ) < 1+1+1+1+1+1 by norm_num),
    boutsGo_high_step hp300 (show (0:ℕ) < 1+1+1+1+1+1+1 by norm_num),
    boutsGo_high_step hp300 (show (0:ℕ) < 1+1+1+1+1+1+1+1 by norm_num),
    boutsGo_high_step hp300 (show (0:ℕ) < 1+1+1+1+1+1+1+1+1 by norm_num),
    boutsGo_gap_step hp200 (show (0:ℕ) < 1+1+1+1+1+1+1+1+1+1 by norm_num)
      (show (0:ℕ) + 1 ≤ 3 by norm_num),
    boutsGo_gap_step hp200 (show (0:ℕ) < 1+1+1+1+1+1+1+1+1+1+1 by norm_num)
      (show (0:ℕ) + 1 + 1 ≤ 3 by norm_num),
    boutsGo_gap_step hp200 (show (0:ℕ) < 1+1+1+1+1+1+1+1+1+1+1+1 by norm_num)
      (show (0:ℕ) + 1 + 1 + 1 ≤ 3 by norm_num),
    boutsGo_close_step hp200 (show (0:ℕ) < 1+1+1+1+1+1+1+1+1+1+1+1+1 by norm_num)
      (show ¬ ((0:ℕ) + 1 + 1 + 1 + 1 ≤ 3) by norm_num),
    hidle]
  norm_num [boutClose]

lemma c3_bouts_general (ts : List ℚ) (h : ts.length = 70) :
    (analyzeBoutsWith (21/20) 3 3 ts c3powers 250).map
      (fun b => (b.duration, b.magnitude)) = [(13, 1440/13)] := by
  obtain ⟨t0, ts1, rfl⟩ := List.exists_of_length_succ ts (show ts.length = 69 + 1 by omega)
  obtain ⟨t1, ts2, rfl⟩ := List.exists_of_length_succ ts1
    (show ts1.length = 68 + 1 by simp at h; omega)
  obtain ⟨t2, ts3, rfl⟩ := List.exists_of_length_succ ts2
    (show ts2.length = 67 + 1 by simp at h; omega)
  obtain ⟨t3, ts4, rfl⟩ := List.exists_of_length_succ ts3
    (show ts3.length = 66 + 1 by simp at h; omega)
  obtain ⟨t4, ts5, rfl⟩ := List.exists_of_length_succ ts4
    (show ts4.length = 65 + 1 by simp at h; omega)
  obtain ⟨t5, ts6, rfl⟩ := List.exists_of_length_succ ts5
    (show ts5.length = 64 + 1 by simp at h; omega)
  obtain ⟨t6, ts7, rfl⟩ := List.exists_of_length_succ ts6
    (show ts6.length = 63 + 1 by simp at h; omega)
  obtain ⟨t7, ts8, rfl⟩ := List.exists_of_length_succ ts7
    (show ts7.length = 62 + 1 by simp at h; omega)
  obtain ⟨t8, ts9, rfl⟩ := List.exists_of_length_succ ts8
    (show ts8.length = 61 + 1 by simp at h; omega)
  obtain ⟨t9, ts10, rfl⟩ := List.exists_of_length_succ ts9
    (show ts9.length = 60 + 1 by simp at h; omega)
  obtain ⟨t10, ts11, rfl⟩ := List.exists_of_length_succ ts10
    (show ts10.length = 59 + 1 by simp at h; omega)
  obtain ⟨t11, ts12, rfl⟩ := List.exists_of_length_succ ts11
    (show ts11.length = 58 + 1 by simp at h; omega)
  obtain ⟨t12, ts13, rfl⟩ := List.exists_of_length_succ ts12
    (show ts12.length = 57 + 1 by simp at h; omega)
  obtain ⟨t13, ts14, rfl⟩ := List.exists_of_length_succ ts13
    (show ts13.length = 56 + 1 by simp at h; omega)
  have hrest : ts14.length = 56 := by simp at h; omega
  have hpow : c3powers = 300 :: 300 :: 300 :: 300 :: 300 :: 300 :: 300 :: 300 ::
      300 :: 300 :: 200 :: 200 :: 200 :: 200 :: List.replicate 56 200 := rfl
  unfold analyzeBoutsWith
  rw [hpow]
  simp only [List.zip_cons_cons]
  rw [← hrest, zip_replicate_const, c3_bouts_core]
  norm_num

/-- C3 counterexample: with CP = 250 W, thresholdFactor = 1.05,
minBoutDuration = 3, gapTolerance = 3 on the 300 W ×10 / 200 W ×60 series, the
detector emits one bout with duration 13 and magnitude 1440/13 (≈ 110.77), not
duration 10 with magnitude 120: the three sub-threshold samples inside the gap
tolerance are absorbed into the bout before it closes. -/
theorem c3_scenario_bout_counterexample :
    (analyzeBoutsWith (21/20) 3 3 c3times c3powers 250).map
        (fun b => (b.duration, b.magnitude)) = [(13, 1440/13)] ∧
      (analyzeBoutsWith (21/20) 3 3 c3times c3powers 250).map
        (fun b => (b.duration, b.magnitude)) ≠ [(10, 120)] := by
  have h := c3_bouts_general c3times
    (by rw [show c3times = List.map (fun n : ℕ => (n : ℚ)) (List.range 70) from rfl,
      List.length_map, List.length_range])
  refine ⟨h, ?_⟩
  rw [h]
  norm_num

/-- One iteration of the `for p in power_series` loop of
`calculate_w_prime_balance`: linear expenditure above CP, exponential recovery
below CP (skipped when `delta_p ≤ 0` or `tau ≤ 0`), then the clamp
`w_balance = min(w_prime, max(0, w_balance))`. -/
noncomputable def wBalStep (cp w_prime A B w_balance p : ℝ) : ℝ :=
  let wb :=
    if cp < p then w_balance - (p - cp)
    else
      let w_expended := w_prime - w_balance
      let delta_p := cp - p
      if 0 < delta_p then
        let tau := A * delta_p ^ B
        if 0 < tau then w_balance + w_expended * (1 - Real.exp (-1 / tau))
        else w_balance
      else w_balance
  min w_prime (max 0 wb)

/-- The loop of `calculate_w_prime_balance`, threading `w_balance` and
collecting `w_bal_list`. -/
noncomputable def wBalGo (cp w_prime A B : ℝ) : ℝ → List ℝ → List ℝ
  | _, [] => []
  | w_balance, p :: ps =>
    wBalStep cp w_prime A B w_balance p ::
      wBalGo cp w_prime A B (wBalStep cp w_prime A B w_balance p) ps

/-- `calculate_w_prime_balance(power_series, cp, w_prime, A, B)` of the source:
`w_balance` starts at `w_prime`. -/
noncomputable def calculate_w_prime_balance (power_series : List ℝ)
    (cp w_prime A B : ℝ) : List ℝ :=
  wBalGo cp w_prime A B w_prime power_series

lemma wBalStep_bounds (cp w_prime A B bal p : ℝ) (hw : 0 ≤ w_prime) :
    0 ≤ wBalStep cp w_prime A B bal p ∧ wBalStep cp w_prime A B bal p ≤ w_prime := by
  unfold wBalStep
  exact ⟨le_min hw (le_max_left 0 _), min_le_left _ _⟩

lemma wBalGo_length (cp w_prime A B : ℝ) :
    ∀ (ps : List ℝ) (bal : ℝ), (wBalGo cp w_prime A B bal ps).length = ps.length := by
  intro ps
  induction ps with
  | nil => intro bal; rfl
  | cons p ps ih => intro bal; simp [wBalGo, ih]

/-- C1: every value appended to the balance series lies in `[0, wPrime]`
(the parameter contract of the specification has `wPrime > 0`; only
`0 ≤ wPrime` is needed). -/
theorem w_balance_clamped (power_series : List ℝ) (cp w_prime A B : ℝ)
    (hw : 0 ≤ w_prime) :
    ∀ x ∈ calculate_w_prime_balance power_series cp w_prime A B,
      0 ≤ x ∧ x ≤ w_prime := by
  suffices h : ∀ (ps : List ℝ) (bal : ℝ), ∀ x ∈ wBalGo cp w_prime A B bal ps,
      0 ≤ x ∧ x ≤ w_prime from h power_series w_prime
  intro ps
  induction ps with
  | nil => intro bal x hx; simp [wBalGo] at hx
  | cons p ps ih =>
    intro bal x hx
    simp only [wBalGo, List.mem_cons] at hx
    rcases hx with rfl | hx
    · exact wBalStep_bounds cp w_prime A B bal p hw
    · exact ih _ x hx

/-- Witness for C1 at a concrete input. -/
theorem w_balance_clamped_witness :
    (0 : ℝ) ≤ 20000 ∧
      ∀ x ∈ calculate_w_prime_balance [300] 250 20000 350 (-0.3),
        0 ≤ x ∧ x ≤ 20000 :=
  ⟨by norm_num, w_balance_clamped [300] 250 20000 350 (-0.3) (by norm_num)⟩

lemma wBalStep_at_cp (cp w_prime A B : ℝ) :
    wBalStep cp w_prime A B w_prime cp = w_prime := by
  have h1 : ¬ cp < cp := lt_irrefl cp
  have h2 : ¬ (0 : ℝ) < cp - cp := by simp
  simp only [wBalStep, h1, h2, if_false]
  rcases le_total 0 w_prime with h | h
  · rw [max_eq_right h, min_self]
  · rw [max_eq_left h, min_eq_left h]

lemma wBalGo_at_cp (cp w_prime A B : ℝ) :
    ∀ ps : List ℝ, (∀ p ∈ ps, p = cp) →
      wBalGo cp w_prime A B w_prime ps = List.replicate ps.length w_prime := by
  intro ps
  induction ps with
  | nil => intro _; rfl
  | cons p ps ih =>
    intro h
    have hp : p = cp := h p (List.mem_cons_self _ _)
    simp only [wBalGo, List.length_cons, List.replicate_succ, hp, wBalStep_at_cp]
    rw [ih fun q hq => h q (List.mem_cons_of_mem _ hq)]

/-- C7: on a series whose every sample equals `cp` exactly, the bout detector
emits no bouts (the threshold comparison is strict) and the balance tracker
keeps the balance at `wPrime` for every sample (neither branch fires). -/
theorem at_cp_no_bouts_and_full_balance :
    (∀ (time_values power_values : List ℚ) (cp : ℚ),
        (∀ p ∈ power_values, p = cp) →
        analyze_bouts time_values power_values cp = []) ∧
      (∀ (power_series : List ℝ) (cp w_prime A B : ℝ),
        (∀ p ∈ power_series, p = cp) →
        calculate_w_prime_balance power_series cp w_prime A B
          = List.replicate power_series.length w_prime) := by
  constructor
  · intro time_values power_values cp h
    refine boutsGo_idle (by norm_num) _ ?_
    intro x hx
    have h2 : x.2 ∈ power_values := (List.of_mem_zip hx).2
    rw [h x.2 h2, mul_one]
    exact lt_irrefl cp
  · intro power_series cp w_prime A B h
    exact wBalGo_at_cp cp w_prime A B power_series h

/-- Witness for C7 at a concrete input. -/
theorem at_cp_witness :
    analyze_bouts [0, 1] [250, 250] 250 = [] ∧
      calculate_w_prime_balance [250, 250] 250 20000 350 (-0.3)
        = List.replicate 2 20000 := by
  constructor
  · exact at_cp_no_bouts_and_full_balance.1 [0, 1] [250, 250] 250 (by simp)
  · have h := at_cp_no_bouts_and_full_balance.2 [250, 250] 250 20000 350 (-0.3)
      (by simp)
    simpa using h

/-- C8: when the computed `tau = A * deltaP ^ B` is non-positive in the
recovery branch, the recovery term is skipped for that step only — the balance
is left unchanged apart from the clamp — and the loop continues with the next
sample. -/
theorem degenerate_tau_skips_recovery (cp w_prime A B bal p : ℝ) (ps : List ℝ)
    (hp : ¬ cp < p) (hd : 0 < cp - p) (ht : A * (cp - p) ^ B ≤ 0) :
    wBalStep cp w_prime A B bal p = min w_prime (max 0 bal) ∧
      wBalGo cp w_prime A B bal (p :: ps)
        = min w_prime (max 0 bal)
            :: wBalGo cp w_prime A B (min w_prime (max 0 bal)) ps := by
  have hstep : wBalStep cp w_prime A B bal p = min w_prime (max 0 bal) := by
    simp only [wBalStep, hp, if_false, hd, if_true, not_lt.mpr ht]
  exact ⟨hstep, by simp only [wBalGo, hstep]⟩

/-- Witness for C8 at a concrete input (`tauA = 0` makes `tau = 0`). -/
theorem degenerate_tau_witness : wBalStep 250 20000 0 1 19000 200 = 19000 := by
  have h := (degenerate_tau_skips_recovery 250 20000 0 1 19000 200 []
    (by norm_num) (by norm_num) (by simp)).1
  rw [h, max_eq_right (by norm_num : (0:ℝ) ≤ 19000),
    min_eq_right (by norm_num : (19000:ℝ) ≤ 20000)]

lemma recovery_factor_bounds {tau : ℝ} (ht : 0 < tau) :
    0 < 1 - Real.exp (-1 / tau) ∧ 1 - Real.exp (-1 / tau) < 1 := by
  have h1 : (-1 : ℝ) / tau < 0 := by
    have : 0 < 1 / tau := by positivity
    rw [neg_div]
    linarith
  have h2 : Real.exp (-1 / tau) < 1 := Real.exp_lt_one_iff.mpr h1
  have h3 : 0 < Real.exp (-1 / tau) := Real.exp_pos _
  constructor <;> linarith

lemma wBalStep_recovery (cp w_prime A B bal p : ℝ)
    (hp : ¬ cp < p) (hd : 0 < cp - p) (ht : 0 < A * (cp - p) ^ B)
    (h0 : 0 ≤ bal) (hw : bal ≤ w_prime) :
    wBalStep cp w_prime A B bal p
        = bal + (w_prime - bal) * (1 - Real.exp (-1 / (A * (cp - p) ^ B))) ∧
      bal ≤ wBalStep cp w_prime A B bal p ∧
      wBalStep cp w_prime A B bal p ≤ w_prime := by
  obtain ⟨hc0, hc1⟩ := recovery_factor_bounds ht
  have hsub : 0 ≤ w_prime - bal := by linarith
  have hpre1 : bal ≤ bal + (w_prime - bal) * (1 - Real.exp (-1 / (A * (cp - p) ^ B))) := by
    nlinarith
  have hpre2 : bal + (w_prime - bal) * (1 - Real.exp (-1 / (A * (cp - p) ^ B)))
      ≤ w_prime := by
    nlinarith
  have hstep : wBalStep cp w_prime A B bal p
      = bal + (w_prime - bal) * (1 - Real.exp (-1 / (A * (cp - p) ^ B))) := by
    simp only [wBalStep, hp, if_false, hd, if_true, ht]
    rw [max_eq_right (by linarith), min_eq_right hpre2]
  exact ⟨hstep, by rw [hstep]; exact hpre1, by rw [hstep]; exact hpre2⟩

/-- C10: in the recovery branch with `0 ≤ balance ≤ wPrime` and `tau > 0`, the
update `balance += (wPrime - balance) * (1 - exp(-1/tau))` never decreases the
balance and never exceeds `wPrime` even before clamping: the clamp is the
identity there and the step equals the unclamped recovery formula. -/
theorem recovery_monotone_bounded (cp w_prime A B bal p : ℝ)
    (hp : ¬ cp < p) (hd : 0 < cp - p) (ht : 0 < A * (cp - p) ^ B)
    (h0 : 0 ≤ bal) (hw : bal ≤ w_prime) :
    bal ≤ wBalStep cp w_prime A B bal p ∧
      wBalStep cp w_prime A B bal p ≤ w_prime ∧
      wBalStep cp w_prime A B bal p
        = bal + (w_prime - bal) * (1 - Real.exp (-1 / (A * (cp - p) ^ B))) := by
  obtain ⟨h1, h2, h3⟩ := wBalStep_recovery cp w_prime A B bal p hp hd ht h0 hw
  exact ⟨h2, h3, h1⟩

/-- Witness for C10 at a concrete input (`tau = 350 * 50 ^ (-0.3) > 0`). -/
theorem recovery_monotone_witness :
    19000 ≤ wBalStep 250 20000 350 (-0.3) 19000 200 ∧
      wBalStep 250 20000 350 (-0.3) 19000 200 ≤ 20000 ∧
      wBalStep 250 20000 350 (-0.3) 19000 200
        = 19000 + (20000 - 19000)
            * (1 - Real.exp (-1 / (350 * (250 - 200) ^ (-0.3 : ℝ)))) := by
  have hτ : (0 : ℝ) < 350 * (250 - 200) ^ (-0.3 : ℝ) := by
    have : (0 : ℝ) < ((250 : ℝ) - 200) ^ (-0.3 : ℝ) :=
      Real.rpow_pos_of_pos (by norm_num) _
    nlinarith
  exact recovery_monotone_bounded 250 20000 350 (-0.3) 19000 200
    (by norm_num) (by norm_num) hτ (by norm_num) (by norm_num)

lemma wBalStep_deplete (cp w_prime A B bal p : ℝ) (hp : cp < p)
    (h0 : 0 ≤ bal - (p - cp)) (hw : bal ≤ w_prime) :
    wBalStep cp w_prime A B bal p = bal - (p - cp) := by
  simp only [wBalStep, hp, if_true]
  rw [max_eq_right h0, min_eq_right (by linarith)]

lemma wBalGo_deplete_run (cp w_prime A B p : ℝ) (hp : cp < p) :
    ∀ (n : ℕ) (bal : ℝ) (rest : List ℝ),
      0 ≤ bal - n * (p - cp) → bal ≤ w_prime →
      wBalGo cp w_prime A B bal (List.replicate n p ++ rest)
        = List.map (fun k : ℕ => bal - (k + 1) * (p - cp)) (List.range n)
            ++ wBalGo cp w_prime A B (bal - n * (p - cp)) rest := by
  intro n
  induction n with
  | zero =>
    intro bal rest _ _
    simp
  | succ n ih =>
    intro bal rest h0 hw
    have hpc : 0 < p - cp := by linarith
    have hn : (0 : ℝ) ≤ (n : ℝ) := Nat.cast_nonneg n
    have hcast : ((n + 1 : ℕ) : ℝ) = (n : ℝ) + 1 := by push_cast; ring
    rw [hcast] at h0
    have hstep0 : 0 ≤ bal - (p - cp) := by nlinarith
    simp only [List.replicate_succ, List.cons_append, wBalGo, List.append_eq,
      wBalStep_deplete cp w_prime A B bal p hp hstep0 hw]
    rw [ih (bal - (p - cp)) rest (by linarith) (by linarith)]
    rw [List.range_succ_eq_map, List.map_cons, List.map_map]
    congr 1
    · push_cast; ring
    congr 1
    · exact List.map_congr_left fun k _ => by
        show bal - (p - cp) - ((k : ℝ) + 1) * (p - cp)
          = bal - (((k + 1 : ℕ) : ℝ) + 1) * (p - cp)
        push_cast; ring
    congr 1
    push_cast; ring

lemma wBalStep_recovery_strict (cp w_prime A B bal p : ℝ)
    (hp : ¬ cp < p) (hd : 0 < cp - p) (ht : 0 < A * (cp - p) ^ B)
    (h0 : 0 ≤ bal) (hw : bal < w_prime) :
    bal < wBalStep cp w_prime A B bal p ∧
      wBalStep cp w_prime A B bal p < w_prime := by
  obtain ⟨heq, _, _⟩ := wBalStep_recovery cp w_prime A B bal p hp hd ht h0 hw.le
  obtain ⟨hc0, hc1⟩ := recovery_factor_bounds ht
  exact ⟨by rw [heq]; nlinarith, by rw [heq]; nlinarith⟩

lemma wBalGo_recovery_run (cp w_prime A B p : ℝ)
    (hp : ¬ cp < p) (hd : 0 < cp - p) (ht : 0 < A * (cp - p) ^ B) :
    ∀ (n : ℕ) (bal : ℝ), 0 ≤ bal → bal < w_prime →
      List.Chain' (· < ·) (bal :: wBalGo cp w_prime A B bal (List.replicate n p)) ∧
        ∀ x ∈ wBalGo cp w_prime A B bal (List.replicate n p), x < w_prime := by
  intro n
  induction n with
  | zero => intro bal _ _; exact ⟨by simp [wBalGo], by simp [wBalGo]⟩
  | succ n ih =>
    intro bal h0 hw
    obtain ⟨hlt, hltw⟩ := wBalStep_recovery_strict cp w_prime A B bal p hp hd ht h0 hw
    have h0' : 0 ≤ wBalStep cp w_prime A B bal p := le_trans h0 hlt.le
    obtain ⟨ihc, ihb⟩ := ih (wBalStep cp w_prime A B bal p) h0' hltw
    simp only [List.replicate_succ, wBalGo]
    refine ⟨List.chain'_cons.mpr ⟨hlt, ihc⟩, ?_⟩
    intro x hx
    rcases List.mem_cons.mp hx with rfl | hx
    · exact hltw
    · exact ihb x hx

/-- The balance series of the C3 scenario: CP 250 W, W-prime 20000 J,
A = 350, B = -0.3 over 10 samples of 300 W then 60 samples of 200 W. -/
noncomputable def c3balance : List ℝ :=
  calculate_w_prime_balance
    (List.replicate 10 300 ++ List.replicate 60 200) 250 20000 350 (-0.3)

/-- C3 amended: the scenario yields exactly one Bout with duration 13 and
magnitude 1440/13 (≈ 110.77, the gap-tolerance samples being absorbed into the
bout), while the balance depletes by 50 J per sample over the first 10 samples
down to 19500 J, then strictly increases toward (and stays below) 20000 J over
the following 60 samples per the exponential recovery model. -/
theorem c3_scenario_amended :
    (analyzeBoutsWith (21/20) 3 3 c3times c3powers 250).map
        (fun b => (b.duration, b.magnitude)) = [(13, 1440/13)] ∧
      c3balance.take 10
        = [19950, 19900, 19850, 19800, 19750, 19700, 19650, 19600, 19550, 19500] ∧
      (c3balance.drop 10).length = 60 ∧
      List.Chain' (· < ·) ((19500 : ℝ) :: c3balance.drop 10) ∧
      ∀ x ∈ c3balance.drop 10, x < 20000 := by
  have hbouts := c3_bouts_general c3times
    (by rw [show c3times = List.map (fun n : ℕ => (n : ℚ)) (List.range 70) from rfl,
      List.length_map, List.length_range])
  have hdep := wBalGo_deplete_run 250 20000 350 (-0.3) 300 (by norm_num) 10 20000
    (List.replicate 60 200) (by push_cast; norm_num) (by norm_num)
  have hc3 : c3balance
      = List.map (fun k : ℕ => (20000 : ℝ) - (k + 1) * (300 - 250)) (List.range 10)
        ++ wBalGo 250 20000 350 (-0.3) (20000 - (10 : ℕ) * (300 - 250))
            (List.replicate 60 200) := hdep
  have hbal : (20000 : ℝ) - (10 : ℕ) * (300 - 250) = 19500 := by push_cast; norm_num
  rw [hbal] at hc3
  have hmaplen : (List.map (fun k : ℕ => (20000 : ℝ) - (k + 1) * (300 - 250))
      (List.range 10)).length = 10 := by
    rw [List.length_map, List.length_range]
  have htau : (0 : ℝ) < 350 * (250 - 200) ^ (-0.3 : ℝ) := by
    have : (0 : ℝ) < ((250 : ℝ) - 200) ^ (-0.3 : ℝ) :=
      Real.rpow_pos_of_pos (by norm_num) _
    nlinarith
  obtain ⟨hchain, hbound⟩ := wBalGo_recovery_run 250 20000 350 (-0.3) 200
    (by norm_num) (by norm_num) htau 60 19500 (by norm_num) (by norm_num)
  refine ⟨hbouts, ?_, ?_, ?_, ?_⟩
  · rw [hc3, List.take_left' hmaplen]
    norm_num [List.range_succ]
  · rw [hc3, List.drop_left' hmaplen, wBalGo_length, List.length_replicate]
  · rw [hc3, List.drop_left' hmaplen]
    exact hchain
  · rw [hc3, List.drop_left' hmaplen]
    exact hbound

/-- Round half to even (the rounding of pandas' `.round`, which uses numpy). -/
def roundHalfEven (x : ℚ) : ℤ :=
  if x - ⌊x⌋ < 1/2 then ⌊x⌋
  else if 1/2 < x - ⌊x⌋ then ⌊x⌋ + 1
  else if ⌊x⌋ % 2 = 0 then ⌊x⌋ else ⌊x⌋ + 1

/-- `.round(2)`: round to two decimal places. -/
def round2 (x : ℚ) : ℚ := (roundHalfEven (x * 100) : ℚ) / 100

/-- The depletion-counting loop of `calculate_depletions_and_zones`: walk the
balance/time pairs carrying the `below_threshold` flag; on a sample strictly
below the threshold with the flag clear, count an event, record its time and
set the flag; on a sample at or above the threshold, clear the flag. -/
def depLoop (thr : ℚ) : Bool → List (ℚ × ℚ) → ℕ × List ℚ
  | _, [] => (0, [])
  | below, (v, t) :: rest =>
    if v < thr ∧ below = false then
      ((depLoop thr true rest).1 + 1, t :: (depLoop thr true rest).2)
    else if thr ≤ v then depLoop thr false rest
    else depLoop thr below rest

/-- Membership of a balance-percent value in zone `i` of the fixed bins
`[-1, 10, 15, 25, 50, 70, 101]` with `right=False`, i.e. the half-open
intervals `[-1,10), [10,15), [15,25), [25,50), [50,70), [70,101)`. -/
def inZone (i : ℕ) (x : ℚ) : Prop :=
  match i with
  | 0 => -1 ≤ x ∧ x < 10
  | 1 => 10 ≤ x ∧ x < 15
  | 2 => 15 ≤ x ∧ x < 25
  | 3 => 25 ≤ x ∧ x < 50
  | 4 => 50 ≤ x ∧ x < 70
  | 5 => 70 ≤ x ∧ x < 101
  | _ => False

instance (i : ℕ) (x : ℚ) : Decidable (inZone i x) := by
  unfold inZone
  split <;> infer_instance

/-- Sample count of zone `i`: how many balance values, converted to percent of
`w_prime`, fall in bin `i` (`pd.cut(...).value_counts()`; values outside every
bin are dropped by `pd.cut`). -/
def zoneCount (w_bal_series : List ℚ) (w_prime : ℚ) (i : ℕ) : ℕ :=
  (w_bal_series.map (fun v => v / w_prime * 100)).countP fun x => decide (inZone i x)

/-- The `Time (s)` column of the zone histogram, in label order. -/
def zone_counts (w_bal_series : List ℚ) (w_prime : ℚ) : List ℕ :=
  [zoneCount w_bal_series w_prime 0, zoneCount w_bal_series w_prime 1,
   zoneCount w_bal_series w_prime 2, zoneCount w_bal_series w_prime 3,
   zoneCount w_bal_series w_prime 4, zoneCount w_bal_series w_prime 5]

/-- `calculate_depletions_and_zones(w_bal_series, w_prime, time_series)`:
depletion count, zone table (counts column and percents column) and depletion
times.  The threshold is `0.15 * w_prime`; `Time (%)` is
`(count / total_duration * 100).round(2)` when `total_duration > 0` else 0. -/
def calculate_depletions_and_zones (w_bal_series : List ℚ) (w_prime : ℚ)
    (time_series : List ℚ) : ℕ × (List ℕ × List ℚ) × List ℚ :=
  let total_duration := time_series.length
  let r := depLoop ((15 : ℚ)/100 * w_prime) false (w_bal_series.zip time_series)
  let counts := zone_counts w_bal_series w_prime
  let percents := counts.map fun c =>
    if 0 < total_duration then round2 ((c : ℚ) / (total_duration : ℚ) * 100) else 0
  (r.1, (counts, percents), r.2)

/-- Specification-side reformulation of the depletion detector (§4.3): a
DepletionEvent fires exactly at a falling edge — a sample strictly below the
threshold whose predecessor (if any) was at or above it. -/
def edgeTimes (thr : ℚ) : Option ℚ → List (ℚ × ℚ) → List ℚ
  | _, [] => []
  | none, (v, t) :: rest =>
    if v < thr then t :: edgeTimes thr (some v) rest
    else edgeTimes thr (some v) rest
  | some pv, (v, t) :: rest =>
    if v < thr ∧ thr ≤ pv then t :: edgeTimes thr (some v) rest
    else edgeTimes thr (some v) rest

lemma depLoop_cons (thr : ℚ) (b : Bool) (v t : ℚ) (rest : List (ℚ × ℚ)) :
    depLoop thr b ((v, t) :: rest)
      = if v < thr ∧ b = false then
          ((depLoop thr true rest).1 + 1, t :: (depLoop thr true rest).2)
        else if thr ≤ v then depLoop thr false rest
        else depLoop thr b rest := rfl

lemma edgeTimes_cons_none (thr v t : ℚ) (rest : List (ℚ × ℚ)) :
    edgeTimes thr none ((v, t) :: rest)
      = if v < thr then t :: edgeTimes thr (some v) rest
        else edgeTimes thr (some v) rest := rfl

lemma edgeTimes_cons_some (thr pv v t : ℚ) (rest : List (ℚ × ℚ)) :
    edgeTimes thr (some pv) ((v, t) :: rest)
      = if v < thr ∧ thr ≤ pv then t :: edgeTimes thr (some v) rest
        else edgeTimes thr (some v) rest := rfl

lemma depLoop_eq_edgeTimes (thr : ℚ) :
    ∀ (l : List (ℚ × ℚ)) (b : Bool) (prev : Option ℚ),
      (b = true ↔ ∃ pv, prev = some pv ∧ pv < thr) →
      (depLoop thr b l).2 = edgeTimes thr prev l ∧
        (depLoop thr b l).1 = (edgeTimes thr prev l).length := by
  intro l
  induction l with
  | nil => intro b prev _; cases prev <;> exact ⟨rfl, rfl⟩
  | cons x rest ih =>
    intro b prev hinv
    obtain ⟨v, t⟩ := x
    have invFor : ∀ c : Bool, (c = true ↔ v < thr) →
        (c = true ↔ ∃ pv, (some v : Option ℚ) = some pv ∧ pv < thr) := by
      intro c hc
      constructor
      · intro h
        exact ⟨v, rfl, hc.mp h⟩
      · rintro ⟨pv, hpv, hlt⟩
        cases hpv
        exact hc.mpr hlt
    by_cases hv : v < thr
    · have hrec := ih true (some v) (invFor true ⟨fun _ => hv, fun _ => rfl⟩)
      by_cases hb : b = true
      · obtain ⟨pv, hprev, hpv⟩ := hinv.mp hb
        subst hprev hb
        rw [depLoop_cons, edgeTimes_cons_some,
          if_neg (fun hc => Bool.noConfusion hc.2), if_neg (not_le.mpr hv),
          if_neg (fun hc => absurd hpv (not_lt.mpr hc.2))]
        exact hrec
      · have hbf : b = false := by
          cases b
          · rfl
          · exact absurd rfl hb
        subst hbf
        have hfin : (((depLoop thr true rest).1 + 1,
            t :: (depLoop thr true rest).2)).2 = t :: edgeTimes thr (some v) rest ∧
            (((depLoop thr true rest).1 + 1, t :: (depLoop thr true rest).2)).1
              = (t :: edgeTimes thr (some v) rest).length := by
          constructor
          · show t :: (depLoop thr true rest).2 = t :: edgeTimes thr (some v) rest
            rw [hrec.1]
          · show (depLoop thr true rest).1 + 1
              = (t :: edgeTimes thr (some v) rest).length
            rw [hrec.2, List.length_cons]
        cases prev with
        | none =>
          rw [depLoop_cons, edgeTimes_cons_none, if_pos ⟨hv, rfl⟩, if_pos hv]
          exact hfin
        | some pv =>
          have hpv : ¬ pv < thr := fun hc => by
            have h := hinv.mpr ⟨pv, rfl, hc⟩
            exact Bool.noConfusion h
          rw [depLoop_cons, edgeTimes_cons_some, if_pos ⟨hv, rfl⟩,
            if_pos ⟨hv, not_lt.mp hpv⟩]
          exact hfin
    · have hrec := ih false (some v) (invFor false (by simp [hv]))
      have h2 : thr ≤ v := not_lt.mp hv
      cases prev with
      | none =>
        rw [depLoop_cons, edgeTimes_cons_none, if_neg (fun hc => absurd hc.1 hv),
          if_pos h2, if_neg hv]
        exact hrec
      | some pv =>
        rw [depLoop_cons, edgeTimes_cons_some, if_neg (fun hc => absurd hc.1 hv),
          if_pos h2, if_neg (fun hc => absurd hc.1 hv)]
        exact hrec

lemma edgeTimes_replicate_below {thr v t : ℚ} (hv : v < thr) :
    ∀ m : ℕ, edgeTimes thr (some v) (List.replicate m (v, t)) = [] := by
  intro m
  induction m with
  | zero => rfl
  | succ m ih =>
    rw [List.replicate_succ]
    simp only [edgeTimes]
    rw [if_neg fun hc => absurd hv (not_lt.mpr hc.2)]
    exact ih

/-- C5: the depletion detector is edge-triggered with hysteresis: the emitted
depletion times are exactly the falling-edge times (one per maximal
below-threshold run, at its first sample), the count is their number, and a
series held constant strictly below the threshold for N ≥ 1 samples yields
exactly one DepletionEvent, not N. -/
theorem depletion_edge_triggered (w_bal_series : List ℚ) (w_prime : ℚ)
    (time_series : List ℚ) :
    ((calculate_depletions_and_zones w_bal_series w_prime time_series).2.2
        = edgeTimes ((15:ℚ)/100 * w_prime) none (w_bal_series.zip time_series) ∧
      (calculate_depletions_and_zones w_bal_series w_prime time_series).1
        = (edgeTimes ((15:ℚ)/100 * w_prime) none
            (w_bal_series.zip time_series)).length) ∧
      ∀ (N : ℕ) (v t : ℚ), 1 ≤ N → v < (15:ℚ)/100 * w_prime →
        (calculate_depletions_and_zones (List.replicate N v) w_prime
          (List.replicate N t)).1 = 1 := by
  have hmain := depLoop_eq_edgeTimes ((15:ℚ)/100 * w_prime)
    (w_bal_series.zip time_series) false none (by simp)
  refine ⟨⟨hmain.1, hmain.2⟩, ?_⟩
  intro N v t hN hv
  obtain ⟨m, rfl⟩ : ∃ m, N = m + 1 := ⟨N - 1, by omega⟩
  have h := depLoop_eq_edgeTimes ((15:ℚ)/100 * w_prime)
    ((List.replicate (m + 1) v).zip (List.replicate (m + 1) t)) false none (by simp)
  show (depLoop ((15:ℚ)/100 * w_prime) false
    ((List.replicate (m + 1) v).zip (List.replicate (m + 1) t))).1 = 1
  rw [h.2, List.zip_replicate, min_self, List.replicate_succ]
  simp only [edgeTimes, if_pos hv]
  rw [edgeTimes_replicate_below hv]
  rfl

/-- Witness for C5 at a concrete input: five consecutive samples at balance 0
(below the 15 J threshold of a 100 J capacity) count as one event, not five. -/
theorem depletion_edge_triggered_witness :
    (calculate_depletions_and_zones (List.replicate 5 0) 100
      (List.replicate 5 7)).1 = 1 :=
  (depletion_edge_triggered (List.replicate 5 0) 100 (List.replicate 5 7)).2
    5 0 7 (by norm_num) (by norm_num)

lemma zone_ite_sum {x : ℚ} (h0 : 0 ≤ x) (h1 : x ≤ 100) :
    (((if inZone 0 x then 1 else 0) + (if inZone 1 x then 1 else 0)
      + (if inZone 2 x then 1 else 0) + (if inZone 3 x then 1 else 0)
      + (if inZone 4 x then 1 else 0) + (if inZone 5 x then 1 else 0)) : ℕ) = 1 := by
  simp only [inZone]
  rcases lt_or_le x 10 with c | c
  · rw [if_pos ⟨by linarith, c⟩,
      if_neg (fun hc => absurd hc.1 (not_le.mpr (by linarith))),
      if_neg (fun hc => absurd hc.1 (not_le.mpr (by linarith))),
      if_neg (fun hc => absurd hc.1 (not_le.mpr (by linarith))),
      if_neg (fun hc => absurd hc.1 (not_le.mpr (by linarith))),
      if_neg (fun hc => absurd hc.1 (not_le.mpr (by linarith)))]
  rcases lt_or_le x 15 with c2 | c2
  · rw [if_neg (fun hc => absurd hc.2 (not_lt.mpr (by linarith))),
      if_pos ⟨c, c2⟩,
      if_neg (fun hc => absurd hc.1 (not_le.mpr (by linarith))),
      if_neg (fun hc => absurd hc.1 (not_le.mpr (by linarith))),
      if_neg (fun hc => absurd hc.1 (not_le.mpr (by linarith))),
      if_neg (fun hc => absurd hc.1 (not_le.mpr (by linarith)))]
  rcases lt_or_le x 25 with c3 | c3
  · rw [if_neg (fun hc => absurd hc.2 (not_lt.mpr (by linarith))),
      if_neg (fun hc => absurd hc.2 (not_lt.mpr (by linarith))),
      if_pos ⟨c2, c3⟩,
      if_neg (fun hc => absurd hc.1 (not_le.mpr (by linarith))),
      if_neg (fun hc => absurd hc.1 (not_le.mpr (by linarith))),
      if_neg (fun hc => absurd hc.1 (not_le.mpr (by linarith)))]
  rcases lt_or_le x 50 with c4 | c4
  · rw [if_neg (fun hc => absurd hc.2 (not_lt.mpr (by linarith))),
      if_neg (fun hc => absurd hc.2 (not_lt.mpr (by linarith))),
      if_neg (fun hc => absurd hc.2 (not_lt.mpr (by linarith))),
      if_pos ⟨c3, c4⟩,
      if_neg (fun hc => absurd hc.1 (not_le.mpr (by linarith))),
      if_neg (fun hc => absurd hc.1 (not_le.mpr (by linarith)))]
  rcases lt_or_le x 70 with c5 | c5
  · rw [if_neg (fun hc => absurd hc.2 (not_lt.mpr (by linarith))),
      if_neg (fun hc => absurd hc.2 (not_lt.mpr (by linarith))),
      if_neg (fun hc => absurd hc.2 (not_lt.mpr (by linarith))),
      if_neg (fun hc => absurd hc.2 (not_lt.mpr (by linarith))),
      if_pos ⟨c4, c5⟩,
      if_neg (fun hc => absurd hc.1 (not_le.mpr (by linarith)))]
  · rw [if_neg (fun hc => absurd hc.2 (not_lt.mpr (by linarith))),
      if_neg (fun hc => absurd hc.2 (not_lt.mpr (by linarith))),
      if_neg (fun hc => absurd hc.2 (not_lt.mpr (by linarith))),
      if_neg (fun hc => absurd hc.2 (not_lt.mpr (by linarith))),
      if_neg (fun hc => absurd hc.2 (not_lt.mpr (by linarith))),
      if_pos ⟨c5, by linarith⟩]

lemma zone_counts_sum (w_prime : ℚ) (hwp : 0 < w_prime) :
    ∀ w : List ℚ, (∀ v ∈ w, 0 ≤ v ∧ v ≤ w_prime) →
      (zone_counts w w_prime).sum = w.length := by
  intro w
  induction w with
  | nil => intro _; rfl
  | cons v vs ih =>
    intro h
    obtain ⟨hv0, hv1⟩ := h v (List.mem_cons_self _ _)
    have hx0 : 0 ≤ v / w_prime * 100 := by positivity
    have hx1 : v / w_prime * 100 ≤ 100 := by
      have hle : v / w_prime ≤ 1 := (div_le_one hwp).mpr hv1
      nlinarith
    have hone := zone_ite_sum hx0 hx1
    have hsum := ih fun u hu => h u (List.mem_cons_of_mem _ hu)
    simp only [zone_counts, zoneCount, List.map_cons, List.countP_cons,
      List.sum_cons, List.sum_nil, List.length_cons, decide_eq_true_eq] at hsum ⊢
    omega

/-- C6: for a balance series whose values lie in `[0, wPrime]` with
`wPrime > 0`, the zone sample counts sum to the number of samples: every
balance-as-percent value falls in exactly one half-open bin. -/
theorem zone_histogram_coverage (w_bal_series : List ℚ) (w_prime : ℚ)
    (time_series : List ℚ) (hwp : 0 < w_prime)
    (hb : ∀ v ∈ w_bal_series, 0 ≤ v ∧ v ≤ w_prime) (_hne : w_bal_series ≠ []) :
    ((calculate_depletions_and_zones w_bal_series w_prime time_series).2.1.1).sum
      = w_bal_series.length :=
  zone_counts_sum w_prime hwp w_bal_series hb

/-- Witness for C6 at a concrete input: three samples at 0 %, 50 % and 99.5 %
of a 200 J capacity are each counted once. -/
theorem zone_histogram_coverage_witness :
    ((calculate_depletions_and_zones [0, 100, 199] 200 [0, 1, 2]).2.1.1).sum = 3 := by
  have h := zone_histogram_coverage [0, 100, 199] 200 [0, 1, 2] (by norm_num)
    (by intro v hv; fin_cases hv <;> norm_num) (by simp)
  simpa using h

/-- Per-file inputs of the combined-zones computation: the zone histogram's
`Time (s)` column (sample counts, in label order) and `duration`, the number
of samples of the file's selected range. -/
structure FileZones where
  zoneSeconds : List ℕ
  duration : ℕ
deriving DecidableEq, Repr

/-- `total_zone_seconds = sum(f['zone_data']['Time (s)'] for f in all_files_data)`:
pointwise sum of the per-file count columns. -/
def total_zone_seconds (files : List FileZones) : List ℕ :=
  files.foldl (fun acc f => List.zipWith (· + ·) acc f.zoneSeconds)
    (List.replicate 6 0)

/-- `total_duration_all_files = sum(f['duration'] for f in all_files_data)`. -/
def total_duration_all (files : List FileZones) : ℕ :=
  (files.map (fun f => f.duration)).sum

/-- The combined `Time (%)` column:
`(total_zone_seconds / total_duration_all_files * 100).round(2)`. -/
def combined_zone_percents (files : List FileZones) : List ℚ :=
  (total_zone_seconds files).map fun s : ℕ =>
    round2 ((s : ℚ) / (total_duration_all files : ℚ) * 100)

lemma getD_zipWith_add :
    ∀ (l₁ l₂ : List ℕ) (i : ℕ), i < l₁.length → i < l₂.length →
      (List.zipWith (· + ·) l₁ l₂).getD i 0 = l₁.getD i 0 + l₂.getD i 0 := by
  intro l₁
  induction l₁ with
  | nil => intro l₂ i h _; simp at h
  | cons a l₁ ih =>
    intro l₂ i h1 h2
    cases l₂ with
    | nil => simp at h2
    | cons b l₂ =>
      cases i with
      | zero => rfl
      | succ i =>
        simp only [List.zipWith_cons_cons, List.getD_cons_succ]
        exact ih l₂ i (by simpa using h1) (by simpa using h2)

lemma total_zone_seconds_aux_length :
    ∀ (files : List FileZones) (acc : List ℕ), acc.length = 6 →
      (∀ f ∈ files, f.zoneSeconds.length = 6) →
      (files.foldl (fun acc f => List.zipWith (· + ·) acc f.zoneSeconds) acc).length
        = 6 := by
  intro files
  induction files with
  | nil => intro acc ha _; simpa using ha
  | cons f fs ih =>
    intro acc ha h6
    simp only [List.foldl_cons]
    refine ih _ ?_ (fun g hg => h6 g (List.mem_cons_of_mem _ hg))
    rw [List.length_zipWith, ha, h6 f (List.mem_cons_self _ _)]
    exact min_self 6

lemma total_zone_seconds_aux_getD (i : ℕ) (hi : i < 6) :
    ∀ (files : List FileZones) (acc : List ℕ), acc.length = 6 →
      (∀ f ∈ files, f.zoneSeconds.length = 6) →
      (files.foldl (fun acc f => List.zipWith (· + ·) acc f.zoneSeconds) acc).getD i 0
        = acc.getD i 0 + (files.map (fun f => f.zoneSeconds.getD i 0)).sum := by
  intro files
  induction files with
  | nil => intro acc _ _; simp
  | cons f fs ih =>
    intro acc ha h6
    have hf6 : f.zoneSeconds.length = 6 := h6 f (List.mem_cons_self _ _)
    have hz6 : (List.zipWith (· + ·) acc f.zoneSeconds).length = 6 := by
      rw [List.length_zipWith, ha, hf6]
      exact min_self 6
    simp only [List.foldl_cons, List.map_cons, List.sum_cons]
    rw [ih _ hz6 (fun g hg => h6 g (List.mem_cons_of_mem _ hg)),
      getD_zipWith_add acc f.zoneSeconds i (ha ▸ hi) (hf6 ▸ hi)]
    omega

/-- C4: the combined zone histogram is duration-weighted: each zone's combined
sample count is the sum of that zone's per-file counts, and its combined
percent is the summed count divided by the summed duration times 100 (rounded
to two decimals) — not an average of per-file percentages. -/
theorem combined_zones_duration_weighted (files : List FileZones)
    (h6 : ∀ f ∈ files, f.zoneSeconds.length = 6)
    (_hd : 0 < total_duration_all files) :
    ∀ i, i < 6 →
      (total_zone_seconds files).getD i 0
          = (files.map (fun f => f.zoneSeconds.getD i 0)).sum ∧
        (combined_zone_percents files).getD i 0
          = round2 ((((files.map (fun f => f.zoneSeconds.getD i 0)).sum : ℕ) : ℚ)
              / (total_duration_all files : ℚ) * 100) := by
  intro i hi
  have hlen : (total_zone_seconds files).length = 6 :=
    total_zone_seconds_aux_length files (List.replicate 6 0) (by simp) h6
  have h1 : (total_zone_seconds files).getD i 0
      = (List.replicate 6 (0 : ℕ)).getD i 0
        + (files.map (fun f => f.zoneSeconds.getD i 0)).sum :=
    total_zone_seconds_aux_getD i hi files (List.replicate 6 0) (by simp) h6
  have hrep : (List.replicate 6 (0 : ℕ)).getD i 0 = 0 := by
    rw [List.getD_eq_getElem _ _ (by simpa using hi), List.getElem_replicate]
  rw [hrep, zero_add] at h1
  refine ⟨h1, ?_⟩
  have hmap : (combined_zone_percents files).getD i 0
      = round2 (((total_zone_seconds files).getD i 0 : ℚ)
          / (total_duration_all files : ℚ) * 100) := by
    unfold combined_zone_percents
    rw [List.getD_eq_getElem _ _ (by rw [List.length_map, hlen]; exact hi),
      List.getElem_map,
      ← List.getD_eq_getElem (total_zone_seconds files) 0 (hlen ▸ hi)]
  rw [hmap, h1]

/-- Witness for C4: a 10-sample file entirely inside zone 0 combined with a
90-sample file never in zone 0 yields 10 % combined for zone 0
(duration-weighted), not 50 %. -/
theorem combined_zones_witness :
    (total_zone_seconds [⟨[10, 0, 0, 0, 0, 0], 10⟩, ⟨[0, 0, 0, 0, 0, 0], 90⟩]).getD 0 0
        = 10 ∧
      (combined_zone_percents
          [⟨[10, 0, 0, 0, 0, 0], 10⟩, ⟨[0, 0, 0, 0, 0, 0], 90⟩]).getD 0 0 = 10 := by
  have h := combined_zones_duration_weighted
    [⟨[10, 0, 0, 0, 0, 0], 10⟩, ⟨[0, 0, 0, 0, 0, 0], 90⟩]
    (by intro f hf; fin_cases hf <;> rfl)
    (by norm_num [total_duration_all])
    0 (by norm_num)
  refine ⟨?_, ?_⟩
  · rw [h.1]
    rfl
  · rw [h.2]
    norm_num [total_duration_all, round2, roundHalfEven]

/-- C9 counterexample: with invalid parameters (`cp = -1 ≤ 0`,
`wPrime = -1 ≤ 0`) the balance tracker returns an ordinary full-length series,
and on an empty series both core operations return ordinary empty results —
no PreconditionViolation is surfaced by the core. -/
theorem no_validation_counterexample :
    calculate_w_prime_balance [300, 300] (-1) (-1) 350 (-0.3) = [-1, -1] ∧
      calculate_w_prime_balance [] (-1) (-1) 350 (-0.3) = [] ∧
      analyze_bouts [] [] (-1) = [] := by
  have hstep : wBalStep (-1) (-1) 350 (-0.3) (-1) 300 = -1 := by
    have h1 : (-1 : ℝ) < 300 := by norm_num
    simp only [wBalStep, h1, if_true]
    rw [show (-1 : ℝ) - (300 - (-1)) = -302 by norm_num,
      max_eq_left (by norm_num : (-302 : ℝ) ≤ 0),
      min_eq_left (by norm_num : (-1 : ℝ) ≤ 0)]
  refine ⟨?_, rfl, rfl⟩
  show wBalGo (-1) (-1) 350 (-0.3) (-1) [300, 300] = [-1, -1]
  simp only [wBalGo, hstep]

/-- C9 amended: the core operations perform no input validation: they are
total functions that return normally on invalid parameters and on empty
series — the balance tracker always returns one balance per input sample
(empty for an empty series) and the bout detector returns an ordinary
(possibly empty) bout list; rejecting malformed inputs is the upstream
caller's responsibility. -/
theorem no_validation_amended :
    (∀ (power_series : List ℝ) (cp w_prime A B : ℝ),
        (calculate_w_prime_balance power_series cp w_prime A B).length
          = power_series.length) ∧
      ∀ cp : ℚ, analyze_bouts [] [] cp = [] :=
  ⟨fun ps cp w_prime A B => wBalGo_length cp w_prime A B ps w_prime,
    fun _ => rfl⟩

end Crit
